import Mathlib

/-!  Verification of the `thumbnailer` pelican plugin
(src/pelican/plugins/thumbnailer/thumbnailer.py).

The source file is shallowly embedded below.  Python strings are modelled
as `List Char`; the Python path functions used by the plugin
(`os.path.commonprefix`, `os.path.splitext`, `os.path.join`,
`os.path.dirname`, `os.path.basename`, `os.path.relpath`) are modelled for
a POSIX separator (`/`, no `altsep`), following CPython's `posixpath`
implementations.  Exceptions (`ValueError` from `int`, `AttributeError`
from `None.group`, `IOError` from `PIL.Image.open`) are modelled with
`Except`.  The file system touched by `resize_file_to` is modelled as a
list of existing paths plus an explicit event trace.
-/

namespace Thumbnailer

/-- Characters of a Python string. -/
abbrev Str := List Char

/-- Decidable equality for `Except`, needed to `decide` concrete runs. -/
instance {ε α : Type} [DecidableEq ε] [DecidableEq α] : DecidableEq (Except ε α) :=
  fun x y =>
    match x, y with
    | .error a, .error b =>
      if h : a = b then isTrue (by rw [h]) else isFalse fun hc => h (Except.error.inj hc)
    | .error _, .ok _ => isFalse fun hc => Except.noConfusion hc
    | .ok _, .error _ => isFalse fun hc => Except.noConfusion hc
    | .ok a, .ok b =>
      if h : a = b then isTrue (by rw [h]) else isFalse fun hc => h (Except.ok.inj hc)

/-! ### Python primitives -/

/-- Python `int(s)` on a string: succeeds on a nonempty all-digit string
(the plugin only ever feeds nonnegative decimal tokens or `?` to `int`;
other shapes raise `ValueError`, modelled as `none`). -/
def pyInt (s : Str) : Option Nat :=
  if s.isEmpty then none
  else if s.all Char.isDigit then
    some (s.foldl (fun a c => a * 10 + (c.toNat - '0'.toNat)) 0)
  else none

/-- Maximal run of decimal digits at the front of a string. -/
def digitRun : Str → Str
  | [] => []
  | c :: cs => if c.isDigit then c :: digitRun cs else []

/-! ### The compiled pattern `(\d+|\?)x(\d+|\?)` and `re.search`

`Resizer.REGEX = re.compile(r"(\d+|\?)x(\d+|\?)")` and the plugin calls
`REGEX.search(spec)`.  We model Python's backtracking search for this
fixed pattern: scan start positions left to right; at each position try
the first alternative `\d+` greedily (backtracking over the number of
digits), then the literal `?`; then the literal `x`; then the second
group (`\d+` greedy, else `?`).  The result is the pair of captured
groups of the leftmost match. -/

/-- Second capture group `(\d+|\?)` at the end of the pattern:
greedy digits, else a literal question mark. -/
def matchTok2 : Str → Option Str
  | [] => none
  | c :: cs =>
    if c.isDigit then some (c :: digitRun cs)
    else if c = '?' then some ['?']
    else none

/-- First alternative `\d+` with backtracking: try taking `k` digits
(longest first), then the literal `x`, then the second group. -/
def tryDigits (s : Str) : Nat → Option (Str × Str)
  | 0 => none
  | k + 1 =>
    let pre := s.take (k + 1)
    if pre.all Char.isDigit ∧ pre.length = k + 1 then
      match s.drop (k + 1) with
      | 'x' :: rest =>
        match matchTok2 rest with
        | some t2 => some (pre, t2)
        | none => tryDigits s k
      | _ => tryDigits s k
    else tryDigits s k

/-- Try to match the whole pattern at the current position. -/
def tryMatchAt (s : Str) : Option (Str × Str) :=
  match tryDigits s (digitRun s).length with
  | some r => some r
  | none =>
    match s with
    | '?' :: 'x' :: rest => (matchTok2 rest).map (fun t2 => (['?'], t2))
    | _ => none

/-- `REGEX.search(s)` returning the two captured groups of the leftmost
match, or `none` when the pattern does not occur. -/
def regexSearch : Str → Option (Str × Str)
  | [] => none
  | c :: cs =>
    match tryMatchAt (c :: cs) with
    | some r => some r
    | none => regexSearch cs

/-! ### `Resizer.resize` -/

/-- The three bound resizer methods `_null_resize`, `_exact_resize`
(`ImageOps.fit`), `_aspect_resize` (`Image.thumbnail`).  The claims under
verification concern strategy selection and target dimensions, so the
pixel-level behaviour of PIL stays opaque. -/
inductive Strategy
  | nullResize
  | exactResize
  | aspectResize
deriving DecidableEq

/-- Python exceptions that can escape the embedded code. -/
inductive PyErr
  | valueError
  | attributeError
deriving DecidableEq

/-- `Resizer.resize(image)`, parameterised by the spec string and the
source image size; returns the selected resizer method together with the
`(targetw, targeth)` it is invoked with, or the exception raised.

Faithful to the source including its branch structure: when both regex
groups are `?` the source first selects `_null_resize` with the source
dimensions, but the following height check is an `if` (not `elif`), so it
runs again and evaluates `int("?")`, which raises `ValueError`.
Consequently the `tmpw = "?"` case below covers both the `?x?` spec
(where `int(tmph)` fails) and the `?xH` spec. -/
def resize (spec : Str) (srcW srcH : Nat) : Except PyErr (Strategy × Nat × Nat) :=
  if 'x' ∉ spec then
    -- Square resize and crop: targetw = targeth = int(spec)
    match pyInt spec with
    | none => .error .valueError
    | some n => .ok (.exactResize, n, n)
  else
    match regexSearch spec with
    | none => .error .attributeError  -- matches is None; matches.group(1) raises
    | some (tmpw, tmph) =>
      if tmpw = ['?'] then
        -- Set Height Size (also reached for "?x?", where int("?") raises)
        match pyInt tmph with
        | none => .error .valueError
        | some h => .ok (.aspectResize, srcW, h)
      else if tmph = ['?'] then
        -- Set Width Size
        match pyInt tmpw with
        | none => .error .valueError
        | some w => .ok (.aspectResize, w, srcH)
      else
        -- Scale and Crop
        match pyInt tmpw with
        | none => .error .valueError
        | some w =>
          match pyInt tmph with
          | none => .error .valueError
          | some h => .ok (.exactResize, w, h)

/-- The `Resizer` object: `__init__` just stores its three arguments,
performing no validation of the spec. -/
structure Resizer where
  name : Str
  spec : Str
  root : Str
deriving DecidableEq

/-- `Resizer(name, spec, root)`: construction always succeeds. -/
def mkResizer (name spec root : Str) : Resizer := ⟨name, spec, root⟩

/-! ### POSIX path functions (`posixpath`, `os.path.commonprefix`) -/

/-- `os.path.commonprefix([a, b])`: the longest common leading sequence,
element by element.  (For strings this is character-wise, not
component-wise.)  Stated generically because `posixpath.relpath` applies
it to lists of path components as well. -/
def commonPfx {α : Type} [DecidableEq α] : List α → List α → List α
  | a :: as, b :: bs => if a = b then a :: commonPfx as bs else []
  | _, _ => []

/-- Python `s.rfind(c)`: highest index of `c` in `s`, `-1` when absent. -/
def rfind (c : Char) (p : Str) : Int :=
  (p.length : Int) - 1 - (p.reverse.indexOf c : Int)

/-- `posixpath.splitext(p)`: split off the extension at the last dot that
comes after the last separator, unless the characters between them are
all dots (a leading-dot filename has no extension). -/
def splitext (p : Str) : Str × Str :=
  let sepIndex := rfind '/' p
  let dotIndex := rfind '.' p
  if sepIndex < dotIndex then
    let probe := (p.drop (sepIndex + 1).toNat).take (dotIndex - sepIndex - 1).toNat
    if probe.any (fun c => c ≠ '.') then
      (p.take dotIndex.toNat, p.drop dotIndex.toNat)
    else (p, [])
  else (p, [])

/-- `posixpath.join(a, b)` (two arguments). -/
def pjoin (a b : Str) : Str :=
  if b.head? = some '/' then b
  else if a = [] ∨ a.getLast? = some '/' then a ++ b
  else a ++ '/' :: b

/-- Python `s.rstrip("/")`: drop trailing separators. -/
def rstripSlash (s : Str) : Str :=
  (s.reverse.dropWhile (fun c => c = '/')).reverse

/-- `posixpath.dirname(p)`. -/
def dirname (p : Str) : Str :=
  let i := (rfind '/' p + 1).toNat
  let head := p.take i
  if head ≠ [] ∧ head.any (fun c => c ≠ '/') then rstripSlash head
  else head

/-- `posixpath.basename(p)`. -/
def basename (p : Str) : Str :=
  p.drop (rfind '/' p + 1).toNat

/-- Python `s.split("/")` (raw split, keeping empty pieces). -/
def splitSep : Str → List Str
  | [] => [[]]
  | c :: cs =>
    if c = '/' then [] :: splitSep cs
    else
      match splitSep cs with
      | p :: ps => (c :: p) :: ps
      | [] => [[c]]

/-- The non-empty components of a path:
`[x for x in p.split(sep) if x]` as used by `posixpath.relpath`. -/
def pathParts (p : Str) : List Str :=
  (splitSep p).filter (fun x => x ≠ [])

/-- Components interleaved with `/`.  For components that are nonempty
and separator-free this coincides with `posixpath.join(*comps)`, which is
how `relpath` reassembles its result. -/
def joinSep : List Str → Str
  | [] => []
  | [c] => c
  | c :: cs => c ++ '/' :: joinSep cs

/-- `posixpath.relpath(p, start)` for inputs that are already absolute
and normalized, so that the `abspath` calls inside it are the identity
(the plugin passes paths produced by `os.walk` over the configured
root).  `'..'` components are emitted for the part of `start` that is
not shared with `p`; the result is rebuilt with `join`. -/
def relpath (p start : Str) : Str :=
  let startList := pathParts start
  let pathList := pathParts p
  let i := (commonPfx startList pathList).length
  let relList := List.replicate (startList.length - i) ['.', '.'] ++ pathList.drop i
  match relList with
  | [] => ['.']
  | r :: rs => rs.foldl pjoin r

/-! ### `Resizer.get_thumbnail_name` and `get_out_path` -/

/-- `Resizer.get_thumbnail_name(in_path)`: strip the character-wise
common prefix with the root, strip one leading separator, and insert
`_name` before the extension. -/
def get_thumbnail_name (name root in_path : Str) : Str :=
  let pref := commonPfx in_path root
  let newFilename := in_path.drop pref.length
  let newFilename :=
    if newFilename.head? = some '/' then newFilename.drop 1 else newFilename
  let be := splitext newFilename
  be.1 ++ '_' :: name ++ be.2

/-- `get_out_path(pelican, in_path, in_filename, name)`, with the
settings `OUTPUT_PATH`, `THUMBNAIL_DIR`, `THUMBNAIL_KEEP_NAME`,
`THUMBNAIL_KEEP_TREE` passed explicitly. -/
def get_out_path (outputPath thumbnailDir : Str) (keepName keepTree : Bool)
    (name in_path in_filename : Str) : Str :=
  let baseOutPath := pjoin outputPath thumbnailDir
  if keepName then
    if keepTree then
      pjoin (pjoin baseOutPath name) (dirname (relpath in_filename in_path))
    else pjoin baseOutPath name
  else baseOutPath

/-! ### `resize_file_to` and the batch walk

The file system is a list of existing paths (`os.path.exists` is
membership); `Image.open` is an abstract decode function that either
yields an image (with its size) or raises `IOError`; the side effects
performed are recorded as an event trace.  `thumbnail.save` is modelled
as always succeeding. -/

/-- A decoded PIL image, reduced to its size. -/
structure PImage where
  w : Nat
  h : Nat
deriving DecidableEq

/-- Observable side effects of the batch pass. -/
inductive Event
  | makedirs (p : Str)
  | decodeAttempt (p : Str)
  | write (p : Str)
  | logGenerated (p : Str)
  | logSkipped (p : Str)
deriving DecidableEq

/-- The output file path chosen by `resize_file_to`: the original
basename when `keep_filename` is set, the derived thumbnail name
otherwise, joined under `out_path`. -/
def targetName (rz : Resizer) (in_path outPath : Str) (keepFilename : Bool) : Str :=
  if keepFilename then pjoin outPath (basename in_path)
  else pjoin outPath (get_thumbnail_name rz.name rz.root in_path)

/-- File-system state after the `os.makedirs` guard. -/
def preFs (fs : List Str) (dir : Str) : List Str :=
  if dir ∈ fs then fs else dir :: fs

/-- Events emitted by the `os.makedirs` guard. -/
def mkdirEvents (fs : List Str) (dir : Str) : List Event :=
  if dir ∈ fs then [] else [Event.makedirs dir]

/-- `Resizer.resize_file_to(in_path, out_path, keep_filename)`:
create the output directory if missing; skip when the target file
already exists; otherwise decode, resize, save.  The `try` block catches
`IOError` only (a decode failure is logged and skipped), so a
`ValueError`/`AttributeError` raised by `resize` propagates. -/
def resize_file_to (decode : Str → Except Unit PImage) (rz : Resizer)
    (fs : List Str) (in_path outPath : Str) (keepFilename : Bool) :
    Except PyErr (List Str × List Event) :=
  let filename := targetName rz in_path outPath keepFilename
  let outDir := dirname filename
  let fs1 := preFs fs outDir
  let ev1 := mkdirEvents fs outDir
  if filename ∈ fs1 then .ok (fs1, ev1)
  else
    match decode in_path with
    | .error _ =>
      .ok (fs1, ev1 ++ [Event.decodeAttempt in_path, Event.logSkipped (basename filename)])
    | .ok img =>
      match resize rz.spec img.w img.h with
      | .error e => .error e
      | .ok _ =>
        .ok (filename :: fs1,
          ev1 ++ [Event.decodeAttempt in_path, Event.write filename,
            Event.logGenerated (basename filename)])

/-- Python `not name.startswith(".")`, negated. -/
def startsWithDot : Str → Bool
  | '.' :: _ => true
  | _ => false

/-- `pattern.match(name)` for a compiled regex given by its full-match
semantics `fullMatch`: Python's `match` anchors at the beginning only, so
it succeeds iff some prefix of `name` is in the pattern's language. -/
def pyMatch (fullMatch : Str → Bool) (s : Str) : Bool :=
  (List.range (s.length + 1)).any fun k => fullMatch (s.take k)

/-- The `is_included` predicate of `resize_thumbnails`: a configured
`THUMBNAIL_INCLUDE_REGEX` replaces the default dot-file filter. -/
def is_included (includeRegex : Option (Str → Bool)) (name : Str) : Bool :=
  match includeRegex with
  | some m => pyMatch m name
  | none => !(startsWithDot name)

/-- The settings read by `resize_thumbnails` / `get_out_path`. -/
structure Settings where
  outputPath : Str
  thumbDir : Str
  keepName : Bool
  keepTree : Bool
  includeRegex : Option (Str → Bool)
  sizes : List (Str × Str)

/-- The iteration plan of `resize_thumbnails`: for every walked
directory, every included filename, every configured `(name, spec)`
entry, one `(dirpath, filename, name, spec)` work item, in loop order. -/
def walkPairs (includeRegex : Option (Str → Bool)) (walk : List (Str × List Str))
    (sizes : List (Str × Str)) : List (Str × Str × Str × Str) :=
  walk.flatMap fun de =>
    (de.2.filter (fun fn => is_included includeRegex fn)).flatMap fun fn =>
      sizes.map fun ns => (de.1, fn, ns.1, ns.2)

/-- The loop body of `resize_thumbnails` for one work item:
`in_filename = path.join(dirpath, filename)`, the output directory from
`get_out_path`, then `resizer.resize_file_to(...)`. -/
def stepPair (decode : Str → Except Unit PImage) (root : Str) (st : Settings)
    (fs : List Str) : Str × Str × Str × Str → Except PyErr (List Str × List Event)
  | (d, fn, nm, sp) =>
    let inFilename := pjoin d fn
    let outPath :=
      get_out_path st.outputPath st.thumbDir st.keepName st.keepTree nm root inFilename
    resize_file_to decode ⟨nm, sp, root⟩ fs inFilename outPath st.keepName

/-- Run the body of `resize_thumbnails` over a list of work items,
threading the file system and accumulating events; an uncaught exception
aborts the rest of the batch. -/
def runBatch (decode : Str → Except Unit PImage) (root : Str) (st : Settings) :
    List Str → List (Str × Str × Str × Str) → Except PyErr (List Str × List Event)
  | fs, [] => .ok (fs, [])
  | fs, pr :: rest =>
    match stepPair decode root st fs pr with
    | .error e => .error e
    | .ok (fs', ev) =>
      match runBatch decode root st fs' rest with
      | .error e => .error e
      | .ok (fs'', ev') => .ok (fs'', ev ++ ev')

/-- The target file a work item writes, as computed inside
`resize_file_to` for that item. -/
def pairTarget (root : Str) (st : Settings) (pr : Str × Str × Str × Str) : Str :=
  targetName ⟨pr.2.2.1, pr.2.2.2, root⟩ (pjoin pr.1 pr.2.1)
    (get_out_path st.outputPath st.thumbDir st.keepName st.keepTree pr.2.2.1 root
      (pjoin pr.1 pr.2.1)) st.keepName

/-- `resize_thumbnails(pelican)` with the walk of the image root given
as data (the `enabled` no-op guard for a missing PIL is outside the
claims under verification). -/
def resize_thumbnails (decode : Str → Except Unit PImage) (root : Str) (st : Settings)
    (walk : List (Str × List Str)) (fs : List Str) : Except PyErr (List Str × List Event) :=
  runBatch decode root st fs (walkPairs st.includeRegex walk st.sizes)

/-! ### `expand_gallery` -/

/-- A metadata value: Python `None` or a string. -/
inductive MetaVal
  | pyNone
  | str (s : Str)
deriving DecidableEq

/-- The metadata mapping, as an association list. -/
abbrev Metadata := List (Str × MetaVal)

/-- Dictionary lookup. -/
def mlookup : Metadata → Str → Option MetaVal
  | [], _ => none
  | (k, v) :: m, key => if k = key then some v else mlookup m key

/-- Dictionary membership (`key in metadata`). -/
def mcontains (m : Metadata) (key : Str) : Bool :=
  (mlookup m key).isSome

/-- Dictionary assignment (`metadata[key] = v`). -/
def mset (m : Metadata) (key : Str) (v : MetaVal) : Metadata :=
  if mcontains m key then
    m.map fun kv => if kv.1 = key then (key, v) else kv
  else m ++ [(key, v)]

/-- A piece of the gallery template: `template.format(filename=...,
url=..., thumbnail=...)` is modelled on the parsed form of the format
string, a sequence of literal pieces and the three named fields. -/
inductive TPiece
  | lit (s : Str)
  | fieldFilename
  | fieldUrl
  | fieldThumbnail

/-- Render the template by substituting the three fields. -/
def renderTemplate (t : List TPiece) (filename url thumbnail : Str) : Str :=
  t.foldr (fun p acc =>
    (match p with
     | .lit s => s
     | .fieldFilename => filename
     | .fieldUrl => url
     | .fieldThumbnail => thumbnail) ++ acc) []

/-- Python `s.replace(old, "")` and friends: replace every
non-overlapping occurrence of `old`, scanning left to right.  (For
`old = ""` Python would interleave `new` everywhere; the plugin only
replaces nonempty patterns, and the `old ≠ []` guard makes the empty
pattern a no-op here.) -/
def replaceAll (old new : Str) (s : Str) : Str :=
  match s with
  | [] => []
  | c :: cs =>
    if h : old ≠ [] ∧ old.isPrefixOf (c :: cs) then
      new ++ replaceAll old new ((c :: cs).drop old.length)
    else c :: replaceAll old new cs
termination_by s.length
decreasing_by
  · simp only [List.length_drop, List.length_cons]
    have hl : 0 < old.length := List.length_pos.mpr h.1
    omega
  · simp only [List.length_cons]
    omega

/-- Whether `pat` occurs as a contiguous substring of `s`. -/
def occursIn (pat s : Str) : Bool :=
  (List.range (s.length + 1)).any fun k => pat.isPrefixOf (s.drop k)

/-- Python `s.replace("\\", "/")`: a character-wise map. -/
def mapBackslash (s : Str) : Str :=
  s.map fun c => if c = '\\' then '/' else c

/-- The settings read by `expand_gallery`.  `basePath` is
`_image_path(generator)`, i.e. `PATH/IMAGE_PATH` with trailing slashes
stripped. -/
structure GSettings where
  basePath : Str
  imagePath : Str
  thumbDir : Str
  template : List TPiece
  thumbName : Str

/-- The public URL computed for one gallery file: the full path with the
base path removed (a substring replace), the leading separator dropped,
then joined under `/static/IMAGE_PATH`. -/
def galleryUrl (st : GSettings) (dirpath filename : Str) : Str :=
  let url0 := (replaceAll st.basePath [] (pjoin dirpath filename)).drop 1
  mapBackslash (pjoin (pjoin ("/static".data) st.imagePath) url0)

/-- The thumbnail URL computed for one gallery file: note the source
applies `get_thumbnail_name` to the bare `filename`, not the full path,
through `Resizer(GALLERY_THUMBNAIL, "?x?", base_path)`. -/
def galleryThumbUrl (st : GSettings) (filename : Str) : Str :=
  let thumb := get_thumbnail_name st.thumbName st.basePath filename
  mapBackslash (pjoin (pjoin ['/'] st.thumbDir) thumb)

/-- One rendered template fragment of the gallery loop body. -/
def galleryLine (st : GSettings) (dirpath filename : Str) : Str :=
  renderTemplate st.template filename (galleryUrl st dirpath filename)
    (galleryThumbUrl st filename)

/-- The `lines` list built by the gallery walk: one fragment per walked
file whose name does not start with a dot, in loop order. -/
def gatherLines (st : GSettings) (walk : List (Str × List Str)) : List Str :=
  walk.flatMap fun de =>
    (de.2.filter (fun fn => !startsWithDot fn)).map (galleryLine st de.1)

/-- Python `"\n".join(lines)`. -/
def joinNL : List Str → Str
  | [] => []
  | [l] => l
  | l :: ls => l ++ '\n' :: joinNL ls

/-- The metadata key tested by `expand_gallery`. -/
def galleryKey : Str := "gallery".data

/-- The metadata key written by `expand_gallery`. -/
def galleryContentKey : Str := "gallery_content".data

/-- `expand_gallery(generator, metadata)`: a no-op when the `gallery`
field is absent or `None`; otherwise walk `basePath/gallery` (the walk
of a given path is supplied as data) and store the joined fragments
under `gallery_content`. -/
def expand_gallery (st : GSettings) (walk : Str → List (Str × List Str))
    (metadata : Metadata) : Metadata :=
  match mlookup metadata galleryKey with
  | none => metadata
  | some MetaVal.pyNone => metadata
  | some (MetaVal.str g) =>
    let inPath := pjoin st.basePath g
    let lines := gatherLines st (walk inPath)
    mset metadata galleryContentKey (MetaVal.str (joinNL lines))

/-! ## Helper lemmas -/

theorem commonPfx_append_left {α : Type} [DecidableEq α] (a r : List α) :
    commonPfx (a ++ r) a = a := by
  induction a with
  | nil => cases r <;> rfl
  | cons x xs ih => simp [commonPfx, ih]

theorem pyInt_some_facts (w : Str) (W : Nat) (h : pyInt w = some W) :
    w ≠ [] ∧ w.all Char.isDigit = true := by
  unfold pyInt at h
  by_cases h1 : w.isEmpty = true
  · rw [if_pos h1] at h
    exact absurd h (by simp)
  · rw [if_neg h1] at h
    by_cases h2 : w.all Char.isDigit = true
    · exact ⟨by simpa using h1, h2⟩
    · rw [if_neg h2] at h
      exact absurd h (by simp)

theorem digits_no_x (w : Str) (hd : w.all Char.isDigit = true) : 'x' ∉ w := by
  intro hx
  have hc : ('x').isDigit = true := List.all_eq_true.mp hd _ hx
  exact absurd hc (by decide)

theorem digits_ne_q (w : Str) (hd : w.all Char.isDigit = true) : w ≠ ['?'] := by
  intro he
  subst he
  have hc : ('?').isDigit = true := List.all_eq_true.mp hd _ (by simp)
  exact absurd hc (by decide)

theorem digitRun_all_digits (w : Str) (hd : w.all Char.isDigit = true) :
    digitRun w = w := by
  induction w with
  | nil => rfl
  | cons c cs ih =>
    simp only [List.all_cons, Bool.and_eq_true] at hd
    simp [digitRun, hd.1, ih hd.2]

theorem digitRun_append_nondigit (w : Str) (c : Char) (t : Str)
    (hd : w.all Char.isDigit = true) (hc : c.isDigit = false) :
    digitRun (w ++ c :: t) = w := by
  induction w with
  | nil => simp [digitRun, hc]
  | cons b bs ih =>
    simp only [List.all_cons, Bool.and_eq_true] at hd
    simp [digitRun, hd.1, ih hd.2]

theorem matchTok2_digits (h : Str) (hne : h ≠ []) (hd : h.all Char.isDigit = true) :
    matchTok2 h = some h := by
  cases h with
  | nil => exact absurd rfl hne
  | cons c cs =>
    simp only [List.all_cons, Bool.and_eq_true] at hd
    simp [matchTok2, hd.1, digitRun_all_digits cs hd.2]

theorem tryDigits_full (w rest t2 : Str) (hne : w ≠ [])
    (hd : w.all Char.isDigit = true) (ht2 : matchTok2 rest = some t2) :
    tryDigits (w ++ 'x' :: rest) w.length = some (w, t2) := by
  cases w with
  | nil => exact absurd rfl hne
  | cons a as =>
    show tryDigits ((a :: as) ++ 'x' :: rest) (as.length + 1) = _
    unfold tryDigits
    have htake : ((a :: as) ++ 'x' :: rest).take (as.length + 1) = a :: as := by
      simp
    have hdrop : ((a :: as) ++ 'x' :: rest).drop (as.length + 1) = 'x' :: rest := by
      simp
    simp only [htake, hdrop, ht2]
    rw [if_pos ⟨hd, by simp⟩]

theorem tryMatchAt_digits_x (w rest t2 : Str) (hne : w ≠ [])
    (hd : w.all Char.isDigit = true) (ht2 : matchTok2 rest = some t2) :
    tryMatchAt (w ++ 'x' :: rest) = some (w, t2) := by
  unfold tryMatchAt
  rw [digitRun_append_nondigit w 'x' rest hd (by decide),
    tryDigits_full w rest t2 hne hd ht2]

theorem regexSearch_digits_x (w rest t2 : Str) (hne : w ≠ [])
    (hd : w.all Char.isDigit = true) (ht2 : matchTok2 rest = some t2) :
    regexSearch (w ++ 'x' :: rest) = some (w, t2) := by
  cases w with
  | nil => exact absurd rfl hne
  | cons a as =>
    show regexSearch (a :: (as ++ 'x' :: rest)) = _
    unfold regexSearch
    rw [show a :: (as ++ 'x' :: rest) = (a :: as) ++ 'x' :: rest from rfl,
      tryMatchAt_digits_x (a :: as) rest t2 hne hd ht2]

theorem regexSearch_q_x (rest t2 : Str) (ht2 : matchTok2 rest = some t2) :
    regexSearch ('?' :: 'x' :: rest) = some (['?'], t2) := by
  unfold regexSearch tryMatchAt
  simp [digitRun, tryDigits, ht2]

theorem mem_of_getLast?_eq {α : Type} (l : List α) (x : α) (h : l.getLast? = some x) :
    x ∈ l := by
  induction l with
  | nil => simp at h
  | cons a t ih =>
    cases t with
    | nil =>
      simp only [List.getLast?_singleton, Option.some.injEq] at h
      simp [h]
    | cons b t' =>
      rw [List.getLast?_cons_cons] at h
      exact List.mem_cons_of_mem a (ih h)

theorem splitSep_ne_nil (s : Str) : splitSep s ≠ [] := by
  cases s with
  | nil => simp [splitSep]
  | cons c cs =>
    by_cases hc : c = '/'
    · simp [splitSep, hc]
    · simp only [splitSep, if_neg hc]
      cases hsp : splitSep cs with
      | nil => simp
      | cons p ps => simp

theorem splitSep_append (a b : Str) :
    splitSep (a ++ '/' :: b) = splitSep a ++ splitSep b := by
  induction a with
  | nil => simp [splitSep]
  | cons c cs ih =>
    by_cases hc : c = '/'
    · subst hc
      simp [splitSep, ih]
    · simp only [List.cons_append, splitSep, if_neg hc, List.append_eq]
      rw [ih]
      cases hsp : splitSep cs with
      | nil => exact absurd hsp (splitSep_ne_nil cs)
      | cons p ps => simp

theorem pathParts_append (a b : Str) :
    pathParts (a ++ '/' :: b) = pathParts a ++ pathParts b := by
  unfold pathParts
  rw [splitSep_append, List.filter_append]

theorem splitSep_no_sep (c : Str) (h : '/' ∉ c) : splitSep c = [c] := by
  induction c with
  | nil => rfl
  | cons x xs ih =>
    have hx : x ≠ '/' := fun he => h (he ▸ List.mem_cons_self x xs)
    simp only [splitSep, if_neg hx]
    rw [ih (fun hm => h (List.mem_cons_of_mem x hm))]

theorem pathParts_single (c : Str) (hne : c ≠ []) (h : '/' ∉ c) : pathParts c = [c] := by
  unfold pathParts
  rw [splitSep_no_sep c h]
  simp [hne]

theorem joinSep_cons (c : Str) (cs : List Str) (h : cs ≠ []) :
    joinSep (c :: cs) = c ++ '/' :: joinSep cs := by
  cases cs with
  | nil => exact absurd rfl h
  | cons d ds => rfl

theorem joinSep_cons_flat (c : Str) (cs : List Str) :
    joinSep (c :: cs) = c ++ cs.flatMap (fun d => '/' :: d) := by
  induction cs generalizing c with
  | nil => simp [joinSep]
  | cons d ds ih =>
    rw [joinSep_cons c (d :: ds) (by simp), ih d]
    simp

theorem pathParts_joinSep (comps : List Str)
    (hgood : ∀ c ∈ comps, c ≠ [] ∧ '/' ∉ c) : pathParts (joinSep comps) = comps := by
  induction comps with
  | nil => rfl
  | cons c cs ih =>
    cases cs with
    | nil =>
      exact pathParts_single c (hgood c (by simp)).1 (hgood c (by simp)).2
    | cons d ds =>
      rw [joinSep_cons c (d :: ds) (by simp), pathParts_append,
        pathParts_single c (hgood c (by simp)).1 (hgood c (by simp)).2,
        ih (fun x hx => hgood x (List.mem_cons_of_mem c hx))]
      rfl

theorem commonPfx_self_append {α : Type} [DecidableEq α] (l r : List α) :
    commonPfx l (l ++ r) = l := by
  induction l with
  | nil => cases r <;> rfl
  | cons x xs ih => simp [commonPfx, ih]

theorem foldl_pjoin_flat (cs : List Str) :
    ∀ acc : Str, (∀ c ∈ cs, c ≠ [] ∧ '/' ∉ c) → acc ≠ [] →
      (∀ x, acc.getLast? = some x → x ≠ '/') →
      cs.foldl pjoin acc = acc ++ cs.flatMap (fun d => '/' :: d) := by
  induction cs with
  | nil =>
    intro acc _ _ _
    simp
  | cons d ds ih =>
    intro acc hgood hne hlast
    have hd := hgood d (by simp)
    have hjoin : pjoin acc d = acc ++ '/' :: d := by
      unfold pjoin
      rw [if_neg ?hb, if_neg ?ha]
      case hb =>
        intro hh
        cases d with
        | nil => simp at hh
        | cons e es =>
          simp only [List.head?_cons, Option.some.injEq] at hh
          exact hd.2 (hh ▸ List.mem_cons_self e es)
      case ha =>
        rintro (h1 | h2)
        · exact hne h1
        · exact hlast '/' h2 rfl
    rw [List.foldl_cons, hjoin,
      ih (acc ++ '/' :: d) (fun x hx => hgood x (List.mem_cons_of_mem d hx))
        (by simp) ?hl]
    · simp
    case hl =>
      intro x hx
      rw [List.getLast?_append_cons] at hx
      cases d with
      | nil => exact absurd rfl hd.1
      | cons e es =>
        rw [List.getLast?_cons_cons] at hx
        exact fun he => hd.2 (he ▸ mem_of_getLast?_eq (e :: es) x hx)

theorem relpath_under_root (root : Str) (comps : List Str) (hne : comps ≠ [])
    (hgood : ∀ c ∈ comps, c ≠ [] ∧ '/' ∉ c) :
    relpath (root ++ '/' :: joinSep comps) root = joinSep comps := by
  simp only [relpath]
  rw [pathParts_append, pathParts_joinSep comps hgood, commonPfx_self_append,
    List.drop_left]
  simp only [Nat.sub_self, List.replicate_zero, List.nil_append]
  cases comps with
  | nil => exact absurd rfl hne
  | cons c cs =>
    have hc := hgood c (by simp)
    dsimp only
    rw [foldl_pjoin_flat cs c (fun x hx => hgood x (List.mem_cons_of_mem c hx)) hc.1
      (fun x hx he => hc.2 (he ▸ mem_of_getLast?_eq c x hx))]
    exact (joinSep_cons_flat c cs).symm

theorem rfind_append_sep (a b : Str) (hb : '/' ∉ b) :
    rfind '/' (a ++ '/' :: b) = (a.length : Int) := by
  unfold rfind
  have hrev : (a ++ '/' :: b).reverse = b.reverse ++ '/' :: a.reverse := by
    simp
  rw [hrev, List.indexOf_append_of_not_mem (by simpa using hb), List.indexOf_cons_self]
  simp only [List.length_append, List.length_cons, List.length_reverse]
  push_cast
  omega

theorem joinSep_ne_nil (comps : List Str) (hne : comps ≠ [])
    (hgood : ∀ c ∈ comps, c ≠ [] ∧ '/' ∉ c) : joinSep comps ≠ [] := by
  cases comps with
  | nil => exact absurd rfl hne
  | cons c cs =>
    rw [joinSep_cons_flat]
    intro h
    exact (hgood c (by simp)).1 (List.append_eq_nil.mp h).1

theorem joinSep_exists_non_sep (comps : List Str) (hne : comps ≠ [])
    (hgood : ∀ c ∈ comps, c ≠ [] ∧ '/' ∉ c) :
    ∃ x ∈ joinSep comps, x ≠ '/' := by
  cases comps with
  | nil => exact absurd rfl hne
  | cons c cs =>
    have hc := hgood c (by simp)
    cases c with
    | nil => exact absurd rfl hc.1
    | cons z zs =>
      refine ⟨z, ?_, fun he => hc.2 (he ▸ List.mem_cons_self z zs)⟩
      rw [joinSep_cons_flat]
      exact List.mem_append_left _ (List.mem_cons_self z zs)

theorem joinSep_getLast_ne_sep (comps : List Str) (hne : comps ≠ [])
    (hgood : ∀ c ∈ comps, c ≠ [] ∧ '/' ∉ c) :
    ∀ x, (joinSep comps).getLast? = some x → x ≠ '/' := by
  induction comps with
  | nil => exact absurd rfl hne
  | cons c cs ih =>
    cases cs with
    | nil =>
      intro x hx he
      exact (hgood c (by simp)).2 (he ▸ mem_of_getLast?_eq c x hx)
    | cons d ds =>
      intro x hx
      rw [joinSep_cons c (d :: ds) (by simp), List.getLast?_append_cons] at hx
      have hJ : joinSep (d :: ds) ≠ [] :=
        joinSep_ne_nil (d :: ds) (by simp)
          (fun y hy => hgood y (List.mem_cons_of_mem c hy))
      cases hJc : joinSep (d :: ds) with
      | nil => exact absurd hJc hJ
      | cons e es =>
        rw [hJc, List.getLast?_cons_cons] at hx
        exact ih (by simp) (fun y hy => hgood y (List.mem_cons_of_mem c hy)) x
          (by rw [hJc]; exact hx)

theorem joinSep_append_single (xs : List Str) (y : Str) (h : xs ≠ []) :
    joinSep (xs ++ [y]) = joinSep xs ++ '/' :: y := by
  induction xs with
  | nil => exact absurd rfl h
  | cons c cs ih =>
    cases cs with
    | nil => rfl
    | cons d ds =>
      rw [show (c :: d :: ds) ++ [y] = c :: ((d :: ds) ++ [y]) from rfl,
        joinSep_cons c ((d :: ds) ++ [y]) (by simp),
        joinSep_cons c (d :: ds) (by simp), ih (by simp)]
      simp

theorem dirname_append_file (A b : Str) (hb : '/' ∉ b)
    (hA1 : ∃ x ∈ A, x ≠ '/') (hA2 : ∀ x, A.getLast? = some x → x ≠ '/') :
    dirname (A ++ '/' :: b) = A := by
  simp only [dirname]
  rw [rfind_append_sep A b hb]
  have hi : ((A.length : Int) + 1).toNat = A.length + 1 := by omega
  rw [hi]
  have htake : (A ++ '/' :: b).take (A.length + 1) = A ++ ['/'] := by
    rw [List.take_append_eq_append_take]
    simp
  rw [htake]
  rw [if_pos ?hc]
  case hc =>
    obtain ⟨x, hx, hxne⟩ := hA1
    refine ⟨by simp, ?_⟩
    rw [List.any_eq_true]
    exact ⟨x, List.mem_append_left _ hx, by simpa using hxne⟩
  unfold rstripSlash
  have hrev : (A ++ ['/']).reverse = '/' :: A.reverse := by simp
  rw [hrev, List.dropWhile_cons_of_pos (by simp)]
  cases hA : A.reverse with
  | nil =>
    obtain ⟨x, hx, _⟩ := hA1
    have : A = [] := by simpa using congrArg List.reverse hA
    rw [this] at hx
    exact absurd hx (List.not_mem_nil x)
  | cons y t =>
    have hy : A.getLast? = some y := by
      rw [← List.head?_reverse, hA, List.head?_cons]
    rw [List.dropWhile_cons_of_neg (by simpa using hA2 y hy), ← hA,
      List.reverse_reverse]

theorem mem_preFs_self (fs : List Str) (d : Str) : d ∈ preFs fs d := by
  unfold preFs
  split
  · assumption
  · exact List.mem_cons_self d fs

theorem subset_preFs (fs : List Str) (d : Str) : fs ⊆ preFs fs d := by
  unfold preFs
  split
  · exact fun x hx => hx
  · exact fun x hx => List.mem_cons_of_mem d hx

theorem mkdirEvents_no_io (fs : List Str) (d p : Str) :
    Event.write p ∉ mkdirEvents fs d ∧ Event.decodeAttempt p ∉ mkdirEvents fs d := by
  unfold mkdirEvents
  split <;> simp

theorem preFs_of_mem (fs : List Str) (d : Str) (h : d ∈ fs) : preFs fs d = fs := by
  unfold preFs
  rw [if_pos h]

theorem mkdirEvents_of_mem (fs : List Str) (d : Str) (h : d ∈ fs) :
    mkdirEvents fs d = [] := by
  unfold mkdirEvents
  rw [if_pos h]

theorem resize_file_to_skip (decode : Str → Except Unit PImage) (rz : Resizer)
    (fs : List Str) (inp outp : Str) (kf : Bool)
    (h : targetName rz inp outp kf ∈ preFs fs (dirname (targetName rz inp outp kf))) :
    resize_file_to decode rz fs inp outp kf =
      .ok (preFs fs (dirname (targetName rz inp outp kf)),
        mkdirEvents fs (dirname (targetName rz inp outp kf))) := by
  simp only [resize_file_to]
  rw [if_pos h]

theorem resize_file_to_ok_mono (decode : Str → Except Unit PImage) (rz : Resizer)
    (fs : List Str) (inp outp : Str) (kf : Bool) (fs' : List Str) (ev : List Event)
    (h : resize_file_to decode rz fs inp outp kf = .ok (fs', ev)) : fs ⊆ fs' := by
  have hsub := subset_preFs fs (dirname (targetName rz inp outp kf))
  simp only [resize_file_to] at h
  split at h
  · injection h with h'
    injection h' with h1 h2
    subst h1
    exact hsub
  · split at h
    · injection h with h'
      injection h' with h1 h2
      subst h1
      exact hsub
    · split at h
      · exact absurd h (by simp)
      · injection h with h'
        injection h' with h1 h2
        subst h1
        exact fun x hx => List.mem_cons_of_mem _ (hsub hx)

theorem resize_file_to_ok_dir_mem (decode : Str → Except Unit PImage) (rz : Resizer)
    (fs : List Str) (inp outp : Str) (kf : Bool) (fs' : List Str) (ev : List Event)
    (h : resize_file_to decode rz fs inp outp kf = .ok (fs', ev)) :
    dirname (targetName rz inp outp kf) ∈ fs' := by
  have hd := mem_preFs_self fs (dirname (targetName rz inp outp kf))
  simp only [resize_file_to] at h
  split at h
  · injection h with h'
    injection h' with h1 h2
    subst h1
    exact hd
  · split at h
    · injection h with h'
      injection h' with h1 h2
      subst h1
      exact hd
    · split at h
      · exact absurd h (by simp)
      · injection h with h'
        injection h' with h1 h2
        subst h1
        exact List.mem_cons_of_mem _ hd

theorem resize_file_to_stable (decode : Str → Except Unit PImage) (rz : Resizer)
    (fs : List Str) (inp outp : Str) (kf : Bool) (fs₁ : List Str) (ev₁ : List Event)
    (h : resize_file_to decode rz fs inp outp kf = .ok (fs₁, ev₁))
    (fs₂ : List Str) (hsub : fs₁ ⊆ fs₂) :
    ∃ ev₂, resize_file_to decode rz fs₂ inp outp kf = .ok (fs₂, ev₂) ∧
      ∀ p, Event.write p ∉ ev₂ := by
  have hdir2 : dirname (targetName rz inp outp kf) ∈ fs₂ :=
    hsub (resize_file_to_ok_dir_mem decode rz fs inp outp kf fs₁ ev₁ h)
  by_cases hmem : targetName rz inp outp kf ∈ fs₂
  · refine ⟨mkdirEvents fs₂ (dirname (targetName rz inp outp kf)), ?_, ?_⟩
    · rw [resize_file_to_skip decode rz fs₂ inp outp kf (subset_preFs fs₂ _ hmem),
        preFs_of_mem fs₂ _ hdir2]
    · intro p
      exact (mkdirEvents_no_io fs₂ _ p).1
  · have hdec : ∃ u, decode inp = .error u := by
      simp only [resize_file_to] at h
      split at h
      · next hin =>
        injection h with h'
        injection h' with h1 h2
        subst h1
        exact absurd (hsub hin) hmem
      · split at h
        · next u heq => exact ⟨u, heq⟩
        · split at h
          · exact absurd h (by simp)
          · injection h with h'
            injection h' with h1 h2
            subst h1
            exact absurd (hsub (List.mem_cons_self _ _)) hmem
    obtain ⟨u, hu⟩ := hdec
    refine ⟨[Event.decodeAttempt inp,
      Event.logSkipped (basename (targetName rz inp outp kf))], ?_, by simp⟩
    simp only [resize_file_to]
    rw [preFs_of_mem fs₂ _ hdir2, mkdirEvents_of_mem fs₂ _ hdir2, if_neg hmem, hu]
    simp

theorem runBatch_ok_mono (decode : Str → Except Unit PImage) (root : Str) (st : Settings) :
    ∀ (pairs : List (Str × Str × Str × Str)) (fs fs' : List Str) (ev : List Event),
      runBatch decode root st fs pairs = .ok (fs', ev) → fs ⊆ fs' := by
  intro pairs
  induction pairs with
  | nil =>
    intro fs fs' ev h
    simp only [runBatch] at h
    injection h with h'
    injection h' with h1 h2
    subst h1
    exact fun x hx => hx
  | cons pr rest ih =>
    intro fs fs' ev h
    simp only [runBatch] at h
    split at h
    · exact absurd h (by simp)
    · next g e heq =>
      split at h
      · exact absurd h (by simp)
      · next q e2 heq2 =>
        injection h with h'
        injection h' with h1 h2
        subst h1
        obtain ⟨d, fn, nm, sp⟩ := pr
        exact fun x hx =>
          ih g q e2 heq2 (resize_file_to_ok_mono decode ⟨nm, sp, root⟩ fs _ _ _ g e heq hx)

theorem runBatch_second_run_no_writes (decode : Str → Except Unit PImage) (root : Str)
    (st : Settings) :
    ∀ (pairs : List (Str × Str × Str × Str)) (fs fs₁ : List Str) (ev₁ : List Event),
      runBatch decode root st fs pairs = .ok (fs₁, ev₁) →
      ∃ ev₂, runBatch decode root st fs₁ pairs = .ok (fs₁, ev₂) ∧
        ∀ p, Event.write p ∉ ev₂ := by
  intro pairs
  induction pairs with
  | nil =>
    intro fs fs₁ ev₁ h
    simp only [runBatch] at h
    injection h with h'
    injection h' with h1 h2
    subst h1
    exact ⟨[], rfl, by simp⟩
  | cons pr rest ih =>
    intro fs fs₁ ev₁ h
    simp only [runBatch] at h
    split at h
    · exact absurd h (by simp)
    · next g e heq =>
      split at h
      · exact absurd h (by simp)
      · next q e2 heq2 =>
        injection h with h'
        injection h' with h1 h2
        subst h1
        obtain ⟨d, fn, nm, sp⟩ := pr
        have hgsub : g ⊆ q := runBatch_ok_mono decode root st rest g q e2 heq2
        obtain ⟨ev₂', hs2, hw2⟩ :=
          resize_file_to_stable decode ⟨nm, sp, root⟩ fs _ _ st.keepName g e heq q hgsub
        obtain ⟨ev₂'', hr2, hw2'⟩ := ih g q e2 heq2
        refine ⟨ev₂' ++ ev₂'', ?_, ?_⟩
        · simp only [runBatch]
          rw [show stepPair decode root st q (d, fn, nm, sp) = .ok (q, ev₂') from hs2]
          dsimp only
          rw [hr2]
        · intro p hp
          rcases List.mem_append.mp hp with h1 | h2
          · exact hw2 p h1
          · exact hw2' p h2

theorem runBatch_append (decode : Str → Except Unit PImage) (root : Str) (st : Settings)
    (l1 l2 : List (Str × Str × Str × Str)) :
    ∀ fs, runBatch decode root st fs (l1 ++ l2) =
      match runBatch decode root st fs l1 with
      | .error e => .error e
      | .ok (g, e) =>
        match runBatch decode root st g l2 with
        | .error e2 => .error e2
        | .ok (q, e2) => .ok (q, e ++ e2) := by
  induction l1 with
  | nil =>
    intro fs
    simp only [List.nil_append, runBatch]
    cases hr : runBatch decode root st fs l2 with
    | error e => rfl
    | ok p =>
      obtain ⟨q, e2⟩ := p
      simp
  | cons pr rest ih =>
    intro fs
    simp only [List.cons_append, runBatch]
    cases hstep : stepPair decode root st fs pr with
    | error e => rfl
    | ok p =>
      obtain ⟨g, e⟩ := p
      dsimp only
      simp only [List.append_eq]
      rw [ih g]
      cases hr : runBatch decode root st g rest with
      | error e2 => rfl
      | ok p2 =>
        obtain ⟨q, e2⟩ := p2
        dsimp only
        cases hr2 : runBatch decode root st q l2 with
        | error e3 => rfl
        | ok p3 =>
          obtain ⟨q3, e3⟩ := p3
          simp

theorem mlookup_map_set_ne (m : Metadata) (k key : Str) (v : MetaVal) (h : k ≠ key) :
    mlookup (m.map fun kv => if kv.1 = key then (key, v) else kv) k = mlookup m k := by
  induction m with
  | nil => rfl
  | cons kv m' ih =>
    obtain ⟨k0, v0⟩ := kv
    by_cases h0 : k0 = key
    · have hhead : (if (k0, v0).1 = key then (key, v) else (k0, v0)) = (key, v) := by
        simp [h0]
      rw [List.map_cons, hhead]
      simp only [mlookup]
      rw [if_neg (fun he : key = k => h he.symm),
        if_neg (fun he : k0 = k => h (he.symm.trans h0))]
      exact ih
    · have hhead : (if (k0, v0).1 = key then (key, v) else (k0, v0)) = (k0, v0) := by
        simp [h0]
      rw [List.map_cons, hhead]
      simp only [mlookup]
      by_cases hk0 : k0 = k
      · rw [if_pos hk0, if_pos hk0]
      · rw [if_neg hk0, if_neg hk0]
        exact ih

theorem mlookup_append_single_ne (m : Metadata) (k key : Str) (v : MetaVal) (h : k ≠ key) :
    mlookup (m ++ [(key, v)]) k = mlookup m k := by
  induction m with
  | nil =>
    simp only [List.nil_append, mlookup]
    rw [if_neg (fun he => h he.symm)]
  | cons kv m' ih =>
    obtain ⟨k0, v0⟩ := kv
    simp only [List.cons_append, mlookup, List.append_eq, ih]

theorem mlookup_mset_ne (m : Metadata) (k key : Str) (v : MetaVal) (h : k ≠ key) :
    mlookup (mset m key v) k = mlookup m k := by
  unfold mset
  split
  · exact mlookup_map_set_ne m k key v h
  · exact mlookup_append_single_ne m k key v h

theorem gatherLines_count (st : GSettings) (w : List (Str × List Str)) :
    (gatherLines st w).length =
      (w.map (fun de => de.2.countP (fun fn => !startsWithDot fn))).sum := by
  unfold gatherLines
  rw [List.length_flatMap]
  congr 1
  apply List.map_congr_left
  intro de _
  simp [List.countP_eq_length_filter]

theorem head?_ne_of_not_mem (s : Str) (c : Char) (h : c ∉ s) : s.head? ≠ some c := by
  cases s with
  | nil => simp
  | cons a t =>
    simp only [List.head?_cons, Option.some.injEq]
    intro he
    injection he with he2
    exact h (by rw [← he2]; exact List.mem_cons_self a t)

theorem head?_append_left {α : Type} (A B : List α) (h : A ≠ []) :
    (A ++ B).head? = A.head? := by
  cases A with
  | nil => exact absurd rfl h
  | cons a t => rfl

theorem getLast?_cons_of_ne_nil (x : Char) (l : Str) (h : l ≠ []) :
    (x :: l).getLast? = l.getLast? := by
  cases l with
  | nil => exact absurd rfl h
  | cons y t => exact List.getLast?_cons_cons

theorem pjoin_sep (a b : Str) (hb : b.head? ≠ some '/') (ha : a ≠ [])
    (hl : a.getLast? ≠ some '/') : pjoin a b = a ++ '/' :: b := by
  unfold pjoin
  rw [if_neg hb, if_neg (by rintro (h1 | h2); exacts [ha h1, hl h2])]

theorem pjoin_root (b : Str) (hb : b.head? ≠ some '/') : pjoin ['/'] b = '/' :: b := by
  unfold pjoin
  rw [if_neg hb]
  simp

theorem mapBackslash_id (s : Str) (h : '\\' ∉ s) : mapBackslash s = s := by
  unfold mapBackslash
  conv_rhs => rw [← List.map_id s]
  apply List.map_congr_left
  intro c hc
  rw [if_neg (fun he => h (by rw [← he]; exact hc))]
  rfl

theorem occursIn_cons_false (pat : Str) (c : Char) (cs : Str)
    (h : occursIn pat (c :: cs) = false) : occursIn pat cs = false := by
  by_contra hc
  rw [Bool.not_eq_false, occursIn, List.any_eq_true] at hc
  obtain ⟨k, hk, hp⟩ := hc
  rw [← Bool.not_eq_true, occursIn, List.any_eq_true] at h
  refine h ⟨k + 1, ?_, ?_⟩
  · rw [List.mem_range] at hk ⊢
    simp only [List.length_cons]
    omega
  · simpa using hp

theorem occursIn_false_not_prefixed (pat s : Str) (h : occursIn pat s = false) :
    ¬ pat.isPrefixOf s = true := by
  intro hp
  rw [← Bool.not_eq_true, occursIn, List.any_eq_true] at h
  exact h ⟨0, by simp, by simpa using hp⟩

theorem replaceAll_no_occur (pat new s : Str) (h : occursIn pat s = false) :
    replaceAll pat new s = s := by
  induction s with
  | nil => rw [replaceAll]
  | cons c cs ih =>
    have hnp : ¬(pat ≠ [] ∧ pat.isPrefixOf (c :: cs)) := by
      rintro ⟨_, hp⟩
      exact occursIn_false_not_prefixed pat (c :: cs) h hp
    rw [replaceAll, dif_neg hnp, ih (occursIn_cons_false pat c cs h)]

theorem replaceAll_strip (pat s : Str) (hne : pat ≠ []) (h : occursIn pat s = false) :
    replaceAll pat [] (pat ++ s) = s := by
  cases pat with
  | nil => exact absurd rfl hne
  | cons c cs =>
    have hp : (c :: cs).isPrefixOf (c :: (cs ++ s)) = true := by
      rw [List.isPrefixOf_iff_prefix]
      exact List.prefix_append (c :: cs) s
    rw [show (c :: cs) ++ s = c :: (cs ++ s) from rfl, replaceAll,
      dif_pos ⟨hne, hp⟩]
    simp only [List.length_cons, List.drop_succ_cons, List.drop_left, List.nil_append]
    exact replaceAll_no_occur (c :: cs) [] s h

theorem rfind_ge_neg_one (c : Char) (p : Str) : -1 ≤ rfind c p := by
  unfold rfind
  have h := List.indexOf_le_length (a := c) (l := p.reverse)
  rw [List.length_reverse] at h
  omega

theorem head?_take (p : Str) (n : Nat) (hn : 0 < n) : (p.take n).head? = p.head? := by
  cases p with
  | nil => simp
  | cons c cs =>
    cases n with
    | zero => omega
    | succ m => simp [List.take_succ_cons]

theorem splitext_fst_subset (p : Str) : (splitext p).1 ⊆ p := by
  simp only [splitext]
  split
  · split
    · exact List.take_subset _ p
    · exact fun x hx => hx
  · exact fun x hx => hx

theorem splitext_snd_subset (p : Str) : (splitext p).2 ⊆ p := by
  simp only [splitext]
  split
  · split
    · exact List.drop_subset _ p
    · exact fun x hx => absurd hx (List.not_mem_nil x)
  · exact fun x hx => absurd hx (List.not_mem_nil x)

theorem splitext_fst_head (p : Str) : (splitext p).1.head? = p.head? := by
  simp only [splitext]
  split
  · split
    · next hlt h2 =>
      have hne0 : (rfind '.' p - rfind '/' p - 1).toNat ≠ 0 := by
        intro h0
        rw [h0, List.take_zero] at h2
        simp at h2
      have hsep := rfind_ge_neg_one '/' p
      exact head?_take p _ (by omega)
    · rfl
  · rfl

/-! ## Claims -/

/-- C1: the spec says `"?x?"` selects `Passthrough` and returns the
source image unmodified; the code instead raises `ValueError`.  The
source's own comment marks the both-`?` branch as `Full Size` selecting
`_null_resize`, but the following height check is written `if` instead
of `elif` (its width twin is an `elif`), so it re-runs and evaluates
`int("?")`.  This theorem evaluates the embedded code at the failing
input: any image (here 100 by 50) with spec `"?x?"` raises. -/
theorem c1_fullsize_spec_raises :
    resize ("?x?".data) 100 50 = .error .valueError := by decide

/-- C2 counterexample: the claim says a malformed spec fails with
`InvalidSpec` at configuration-parse time, when the `Resizer` is
constructed.  In the code `Resizer.__init__` stores its arguments with
no validation, so construction with spec `"bogus"` succeeds unchanged,
and the failure happens later, inside `resize`, on every image. -/
theorem c2_counterexample :
    mkResizer ("n".data) ("bogus".data) ("r".data) =
      { name := ("n".data), spec := ("bogus".data), root := ("r".data) } ∧
    resize ("bogus".data) 100 50 = .error .valueError := by
  exact ⟨rfl, by decide⟩

/-- C2 amended: `Resizer.__init__` performs no validation (construction
always succeeds and just stores the spec); a malformed spec fails
per-image at resize time: with no `x` and a non-integer spec, `int`
raises `ValueError`; with an `x` but no occurrence of the two-token
pattern, `REGEX.search` returns `None` and `.group(1)` raises
`AttributeError`. -/
theorem c2_invalid_spec_resize_time (name root spec : Str) (sw sh : Nat) :
    mkResizer name spec root = ⟨name, spec, root⟩ ∧
    ('x' ∉ spec → pyInt spec = none → resize spec sw sh = .error .valueError) ∧
    ('x' ∈ spec → regexSearch spec = none → resize spec sw sh = .error .attributeError) := by
  refine ⟨rfl, ?_, ?_⟩
  · intro hx hint
    unfold resize
    rw [if_pos hx, hint]
  · intro hx hre
    unfold resize
    rw [if_neg (by simpa using hx), hre]

/-- C2 witness: the amended statement at the concrete malformed specs
`"bogus"` (no `x`) and `"axb"` (an `x` but no pattern occurrence). -/
theorem c2_invalid_spec_resize_time_witness :
    resize ("bogus".data) 100 50 = .error .valueError ∧
    resize ("axb".data) 100 50 = .error .attributeError :=
  ⟨(c2_invalid_spec_resize_time ("n".data) ("r".data) ("bogus".data) 100 50).2.1
      (by decide) (by decide),
   (c2_invalid_spec_resize_time ("n".data) ("r".data) ("axb".data) 100 50).2.2
      (by decide) (by decide)⟩

/-- C3: spec parsing for every well-formed spec other than `?x?`: a
bare integer spec `N` selects `_exact_resize` with target `(N, N)`;
`Wx?` selects `_aspect_resize` with target `(W, sourceHeight)`; `?xH`
selects `_aspect_resize` with target `(sourceWidth, H)`; `WxH` selects
`_exact_resize` with target `(W, H)`.  `w` and `h` range over arbitrary
decimal numerals with values `W` and `H`. -/
theorem c3_spec_parsing (w h : Str) (W H sw sh : Nat)
    (hw : pyInt w = some W) (hh : pyInt h = some H) :
    resize w sw sh = .ok (.exactResize, W, W) ∧
    resize (w ++ 'x' :: ['?']) sw sh = .ok (.aspectResize, W, sh) ∧
    resize ('?' :: 'x' :: h) sw sh = .ok (.aspectResize, sw, H) ∧
    resize (w ++ 'x' :: h) sw sh = .ok (.exactResize, W, H) := by
  obtain ⟨hwne, hwd⟩ := pyInt_some_facts w W hw
  obtain ⟨hhne, hhd⟩ := pyInt_some_facts h H hh
  refine ⟨?_, ?_, ?_, ?_⟩
  · unfold resize
    rw [if_pos (digits_no_x w hwd), hw]
  · unfold resize
    rw [if_neg (by simp), regexSearch_digits_x w ['?'] ['?'] hwne hwd (by decide)]
    dsimp only
    rw [if_neg (digits_ne_q w hwd), if_pos rfl, hw]
  · unfold resize
    rw [if_neg (by simp), regexSearch_q_x h h (matchTok2_digits h hhne hhd)]
    dsimp only
    rw [if_pos rfl, hh]
  · unfold resize
    rw [if_neg (by simp), regexSearch_digits_x w h h hwne hwd (matchTok2_digits h hhne hhd)]
    dsimp only
    rw [if_neg (digits_ne_q w hwd), if_neg (digits_ne_q h hhd), hw, hh]

/-- C3 witness: the four spec shapes at `150`/`200` on a 400 by 300
source. -/
theorem c3_spec_parsing_witness :
    resize ("150".data) 400 300 = .ok (.exactResize, 150, 150) ∧
    resize (("150".data) ++ 'x' :: ['?']) 400 300 = .ok (.aspectResize, 150, 300) ∧
    resize ('?' :: 'x' :: ("200".data)) 400 300 = .ok (.aspectResize, 400, 200) ∧
    resize (("150".data) ++ 'x' :: ("200".data)) 400 300 = .ok (.exactResize, 150, 200) :=
  c3_spec_parsing ("150".data) ("200".data) 150 200 400 300 (by decide) (by decide)

/-- C4: for an input path of the form `root ++ "/" ++ rest`,
`get_thumbnail_name` strips the common prefix (which is exactly the
root), strips the one leading separator, and inserts `_name` before the
extension of the remainder; in particular `<root>/sub/img.jpg` with
resizer name `thumb` yields `sub/img_thumb.jpg`. -/
theorem c4_thumbnail_name (name root rest : Str) :
    get_thumbnail_name name root (root ++ '/' :: rest) =
      (splitext rest).1 ++ '_' :: name ++ (splitext rest).2 ∧
    get_thumbnail_name ("thumb".data) root (root ++ '/' :: ("sub/img.jpg".data)) =
      ("sub/img_thumb.jpg".data) := by
  have hgen : ∀ nm rs : Str, get_thumbnail_name nm root (root ++ '/' :: rs) =
      (splitext rs).1 ++ '_' :: nm ++ (splitext rs).2 := by
    intro nm rs
    simp [get_thumbnail_name, commonPfx_append_left, List.drop_left]
  refine ⟨hgen name rest, ?_⟩
  rw [hgen ("thumb".data) ("sub/img.jpg".data)]
  decide

/-- C5: the output directory follows the naming-policy table.  With
`keep_filename` false it is `OUTPUT_PATH/THUMBNAIL_DIR` for any
`keep_tree`; with `keep_filename` true and `keep_tree` false it gains
the resizer name; with both true it additionally gains the directory of
the source file relative to the image root, here a nested source file
`root ++ "/" ++ dir1/we/dirN/fname` given by its separator-free, nonempty
path components. -/
theorem c5_out_path_table (outP thumbD nm root inFile : Str) (kt : Bool)
    (dirComps : List Str) (fname : Str)
    (hne : dirComps ≠ [])
    (hgood : ∀ c ∈ dirComps, c ≠ [] ∧ '/' ∉ c)
    (hf : fname ≠ []) (hfs : '/' ∉ fname) :
    get_out_path outP thumbD false kt nm root inFile = pjoin outP thumbD ∧
    get_out_path outP thumbD true false nm root inFile = pjoin (pjoin outP thumbD) nm ∧
    get_out_path outP thumbD true true nm root
        (root ++ '/' :: joinSep (dirComps ++ [fname])) =
      pjoin (pjoin (pjoin outP thumbD) nm) (joinSep dirComps) := by
  refine ⟨rfl, rfl, ?_⟩
  have hgood' : ∀ c ∈ dirComps ++ [fname], c ≠ [] ∧ '/' ∉ c := by
    intro c hc
    rcases List.mem_append.mp hc with h1 | h2
    · exact hgood c h1
    · rw [List.mem_singleton.mp h2]
      exact ⟨hf, hfs⟩
  show pjoin (pjoin (pjoin outP thumbD) nm)
      (dirname (relpath (root ++ '/' :: joinSep (dirComps ++ [fname])) root)) = _
  rw [relpath_under_root root (dirComps ++ [fname]) (by simp) hgood',
    joinSep_append_single dirComps fname hne,
    dirname_append_file (joinSep dirComps) fname hfs
      (joinSep_exists_non_sep dirComps hne hgood)
      (joinSep_getLast_ne_sep dirComps hne hgood)]

/-- C5 witness: the table at a concrete nested source file
`/pics/sub/img.jpg` under root `/pics`. -/
theorem c5_out_path_table_witness :
    get_out_path ("/out".data) ("thumbnails".data) false false ("thumb".data)
        ("/pics".data) ("/pics/sub/img.jpg".data) =
      pjoin ("/out".data) ("thumbnails".data) ∧
    get_out_path ("/out".data) ("thumbnails".data) true false ("thumb".data)
        ("/pics".data) ("/pics/sub/img.jpg".data) =
      pjoin (pjoin ("/out".data) ("thumbnails".data)) ("thumb".data) ∧
    get_out_path ("/out".data) ("thumbnails".data) true true ("thumb".data)
        ("/pics".data) (("/pics".data) ++ '/' :: joinSep ([("sub".data)] ++ [("img.jpg".data)])) =
      pjoin (pjoin (pjoin ("/out".data) ("thumbnails".data)) ("thumb".data))
        (joinSep [("sub".data)]) :=
  c5_out_path_table ("/out".data) ("thumbnails".data) ("thumb".data) ("/pics".data)
    ("/pics/sub/img.jpg".data) false [("sub".data)] ("img.jpg".data)
    (by simp) (by decide) (by decide) (by decide)

/-- C6: `resize_file_to` is idempotent.  If the target file already
exists, the call returns with at most a `makedirs` side effect: no
decode attempt, no write (so the existing file is never overwritten) —
the result is exactly the post-`makedirs` state and event list, which
contain no `decodeAttempt` and no `write` events.  Consequently, running
the batch pass a second time on an unchanged source tree (same decode
function, same work items) from the file system the first successful run
produced performs no writes at all. -/
theorem c6_skip_existing_idempotent :
    (∀ (decode : Str → Except Unit PImage) (rz : Resizer) (fs : List Str)
        (inp outp : Str) (kf : Bool), targetName rz inp outp kf ∈ fs →
      resize_file_to decode rz fs inp outp kf =
        .ok (preFs fs (dirname (targetName rz inp outp kf)),
          mkdirEvents fs (dirname (targetName rz inp outp kf))) ∧
      (∀ p, Event.write p ∉ mkdirEvents fs (dirname (targetName rz inp outp kf)) ∧
        Event.decodeAttempt p ∉ mkdirEvents fs (dirname (targetName rz inp outp kf)))) ∧
    (∀ (decode : Str → Except Unit PImage) (root : Str) (st : Settings)
        (pairs : List (Str × Str × Str × Str)) (fs fs₁ : List Str) (ev₁ : List Event),
      runBatch decode root st fs pairs = .ok (fs₁, ev₁) →
      ∃ ev₂, runBatch decode root st fs₁ pairs = .ok (fs₁, ev₂) ∧
        ∀ p, Event.write p ∉ ev₂) := by
  constructor
  · intro decode rz fs inp outp kf hmem
    exact ⟨resize_file_to_skip decode rz fs inp outp kf (subset_preFs fs _ hmem),
      fun p => mkdirEvents_no_io fs _ p⟩
  · intro decode root st pairs fs fs₁ ev₁ h
    exact runBatch_second_run_no_writes decode root st pairs fs fs₁ ev₁ h

/-- C6 witness: with the target `/out/img_thumb.jpg` already present the
call is a pure skip, and a one-item batch re-run from the state its
first run produced performs no writes. -/
theorem c6_skip_existing_idempotent_witness :
    resize_file_to (fun _ => Except.error ())
        ⟨("thumb".data), ("150".data), ("/pics".data)⟩
        [("/out/img_thumb.jpg".data), ("/out".data)]
        ("/pics/img.jpg".data) ("/out".data) false =
      .ok ([("/out/img_thumb.jpg".data), ("/out".data)], []) ∧
    (∃ ev₂, runBatch (fun _ => Except.ok ⟨4, 2⟩) ("/pics".data)
        ⟨("/out".data), ("thumbnails".data), false, false, none,
          [(("thumb".data), ("150".data))]⟩
        [("/out/thumbnails/img_thumb.jpg".data), ("/out/thumbnails".data)]
        [(("/pics".data), ("img.jpg".data), ("thumb".data), ("150".data))] =
      .ok ([("/out/thumbnails/img_thumb.jpg".data), ("/out/thumbnails".data)], ev₂) ∧
        ∀ p, Event.write p ∉ ev₂) :=
  ⟨(c6_skip_existing_idempotent.1 (fun _ => Except.error ())
      ⟨("thumb".data), ("150".data), ("/pics".data)⟩
      [("/out/img_thumb.jpg".data), ("/out".data)]
      ("/pics/img.jpg".data) ("/out".data) false (by decide)).1,
   c6_skip_existing_idempotent.2 (fun _ => Except.ok ⟨4, 2⟩) ("/pics".data)
      ⟨("/out".data), ("thumbnails".data), false, false, none,
        [(("thumb".data), ("150".data))]⟩
      [(("/pics".data), ("img.jpg".data), ("thumb".data), ("150".data))] []
      [("/out/thumbnails/img_thumb.jpg".data), ("/out/thumbnails".data)]
      [Event.makedirs ("/out/thumbnails".data),
        Event.decodeAttempt ("/pics/img.jpg".data),
        Event.write ("/out/thumbnails/img_thumb.jpg".data),
        Event.logGenerated ("img_thumb.jpg".data)] (by decide)⟩

/-- C7: a decode failure (`Image.open` raising `IOError`) is caught by
the `try` block: the work item returns normally with a
`logSkipped` event instead of a write (first part), and therefore a
batch `l1 ++ bad :: l2` whose prefix `l1` succeeded goes on to process
the entire remainder `l2` exactly as a batch of `l2` from the post-skip
state would, instead of aborting at `bad` (second part). -/
theorem c7_decode_failure_continues (decode : Str → Except Unit PImage) (root : Str)
    (st : Settings) (d fn nm sp : Str)
    (hdec : decode (pjoin d fn) = .error ()) :
    (∀ fs : List Str, ∃ g ev, stepPair decode root st fs (d, fn, nm, sp) = .ok (g, ev) ∧
      (pairTarget root st (d, fn, nm, sp) ∉
          preFs fs (dirname (pairTarget root st (d, fn, nm, sp))) →
        Event.logSkipped (basename (pairTarget root st (d, fn, nm, sp))) ∈ ev)) ∧
    (∀ (l1 l2 : List (Str × Str × Str × Str)) (fs fs₁ : List Str) (ev₁ : List Event),
      runBatch decode root st fs l1 = .ok (fs₁, ev₁) →
      ∃ g ev₂, stepPair decode root st fs₁ (d, fn, nm, sp) = .ok (g, ev₂) ∧
        runBatch decode root st fs (l1 ++ (d, fn, nm, sp) :: l2) =
          match runBatch decode root st g l2 with
          | .error e => .error e
          | .ok (q, e2) => .ok (q, (ev₁ ++ ev₂) ++ e2)) := by
  have hstep : ∀ fs : List Str,
      ∃ g ev, stepPair decode root st fs (d, fn, nm, sp) = .ok (g, ev) ∧
        (pairTarget root st (d, fn, nm, sp) ∉
            preFs fs (dirname (pairTarget root st (d, fn, nm, sp))) →
          Event.logSkipped (basename (pairTarget root st (d, fn, nm, sp))) ∈ ev) := by
    intro fs
    by_cases hmem : pairTarget root st (d, fn, nm, sp) ∈
        preFs fs (dirname (pairTarget root st (d, fn, nm, sp)))
    · refine ⟨_, _, resize_file_to_skip decode ⟨nm, sp, root⟩ fs (pjoin d fn) _
        st.keepName hmem, fun hno => absurd hmem hno⟩
    · refine ⟨preFs fs (dirname (pairTarget root st (d, fn, nm, sp))),
        mkdirEvents fs (dirname (pairTarget root st (d, fn, nm, sp))) ++
          [Event.decodeAttempt (pjoin d fn),
            Event.logSkipped (basename (pairTarget root st (d, fn, nm, sp)))],
        ?_, fun _ => by simp⟩
      have hpt : pairTarget root st (d, fn, nm, sp) =
          targetName ⟨nm, sp, root⟩ (pjoin d fn)
            (get_out_path st.outputPath st.thumbDir st.keepName st.keepTree nm root
              (pjoin d fn)) st.keepName := rfl
      show resize_file_to decode ⟨nm, sp, root⟩ fs (pjoin d fn) _ st.keepName = _
      simp only [resize_file_to]
      rw [hpt] at hmem ⊢
      rw [if_neg hmem, hdec]
  refine ⟨hstep, ?_⟩
  intro l1 l2 fs fs₁ ev₁ h
  obtain ⟨g, ev₂, hs, _⟩ := hstep fs₁
  refine ⟨g, ev₂, hs, ?_⟩
  rw [runBatch_append decode root st l1 ((d, fn, nm, sp) :: l2) fs, h]
  dsimp only
  simp only [runBatch]
  rw [hs]
  dsimp only
  cases hr : runBatch decode root st g l2 with
  | error e => rfl
  | ok p =>
    obtain ⟨q, e2⟩ := p
    dsimp only
    rw [List.append_assoc]

/-- C7 witness: a one-item batch whose single decode fails returns
normally with a skip log, and the composition equation at the concrete
instance. -/
theorem c7_decode_failure_continues_witness :
    (∃ g ev, stepPair (fun _ => Except.error ()) ("/pics".data)
        ⟨("/out".data), ("thumbnails".data), false, false, none,
          [(("thumb".data), ("150".data))]⟩ []
        (("/pics".data), ("img.jpg".data), ("thumb".data), ("150".data)) =
          .ok (g, ev) ∧
      (pairTarget ("/pics".data)
          ⟨("/out".data), ("thumbnails".data), false, false, none,
            [(("thumb".data), ("150".data))]⟩
          (("/pics".data), ("img.jpg".data), ("thumb".data), ("150".data)) ∉
          preFs []
            (dirname (pairTarget ("/pics".data)
              ⟨("/out".data), ("thumbnails".data), false, false, none,
                [(("thumb".data), ("150".data))]⟩
              (("/pics".data), ("img.jpg".data), ("thumb".data), ("150".data)))) →
        Event.logSkipped (basename (pairTarget ("/pics".data)
          ⟨("/out".data), ("thumbnails".data), false, false, none,
            [(("thumb".data), ("150".data))]⟩
          (("/pics".data), ("img.jpg".data), ("thumb".data), ("150".data)))) ∈ ev)) :=
  (c7_decode_failure_continues (fun _ => Except.error ()) ("/pics".data)
    ⟨("/out".data), ("thumbnails".data), false, false, none,
      [(("thumb".data), ("150".data))]⟩
    ("/pics".data) ("img.jpg".data) ("thumb".data) ("150".data) (by decide)).1 []

/-- C8: `expand_gallery` with the `gallery` metadata field absent, or
present with value `None`, returns the metadata mapping unmodified.
Otherwise it stores under the new key `gallery_content` the
newline-join of the rendered fragments, of which there is exactly one
per walked file whose name does not start with a dot, and leaves every
other key unchanged. -/
theorem c8_expand_gallery (st : GSettings) (walk : Str → List (Str × List Str))
    (metadata : Metadata) :
    (mlookup metadata galleryKey = none → expand_gallery st walk metadata = metadata) ∧
    (mlookup metadata galleryKey = some MetaVal.pyNone →
      expand_gallery st walk metadata = metadata) ∧
    (∀ g : Str, mlookup metadata galleryKey = some (MetaVal.str g) →
      expand_gallery st walk metadata =
        mset metadata galleryContentKey
          (MetaVal.str (joinNL (gatherLines st (walk (pjoin st.basePath g))))) ∧
      (gatherLines st (walk (pjoin st.basePath g))).length =
        ((walk (pjoin st.basePath g)).map
          (fun de => de.2.countP (fun fn => !startsWithDot fn))).sum ∧
      (∀ k, k ≠ galleryContentKey →
        mlookup (expand_gallery st walk metadata) k = mlookup metadata k)) := by
  refine ⟨?_, ?_, ?_⟩
  · intro h
    unfold expand_gallery
    rw [h]
  · intro h
    unfold expand_gallery
    rw [h]
  · intro g h
    have he : expand_gallery st walk metadata =
        mset metadata galleryContentKey
          (MetaVal.str (joinNL (gatherLines st (walk (pjoin st.basePath g))))) := by
      unfold expand_gallery
      rw [h]
    refine ⟨he, gatherLines_count st _, ?_⟩
    intro k hk
    rw [he, mlookup_mset_ne metadata k galleryContentKey _ hk]

/-- C8 witness: absent field is a no-op on empty metadata; `gallery =
"vacation"` over a directory with `a.jpg` and `.hidden.jpg` yields
a one-fragment `gallery_content` and preserves the `gallery` key. -/
theorem c8_expand_gallery_witness :
    expand_gallery
        ⟨("content/pictures".data), ("pictures".data), ("thumbnails".data),
          [TPiece.fieldFilename], ("thumbnail_square".data)⟩
        (fun _ => [(("content/pictures/vacation".data),
          [("a.jpg".data), (".hidden.jpg".data)])]) [] = [] ∧
    (gatherLines
        ⟨("content/pictures".data), ("pictures".data), ("thumbnails".data),
          [TPiece.fieldFilename], ("thumbnail_square".data)⟩
        [(("content/pictures/vacation".data),
          [("a.jpg".data), (".hidden.jpg".data)])]).length = 1 := by
  constructor
  · exact (c8_expand_gallery
      ⟨("content/pictures".data), ("pictures".data), ("thumbnails".data),
        [TPiece.fieldFilename], ("thumbnail_square".data)⟩
      (fun _ => [(("content/pictures/vacation".data),
        [("a.jpg".data), (".hidden.jpg".data)])]) []).1 rfl
  · decide

/-- C9: the batch inclusion filter.  With no configured include regex, a
walked file generates work items exactly when its bare name does not
start with a dot (one item per configured size).  A configured regex
`m` — given by the full-match semantics of the pattern — replaces that
default entirely: the file generates work items exactly when the
pattern matches at the start of the bare filename, i.e. when some
prefix of the name is in the pattern's language, regardless of leading
dots. -/
theorem c9_include_filter (walk : List (Str × List Str)) (sizes : List (Str × Str))
    (d fn nm sp : Str) (m : Str → Bool) :
    ((d, fn, nm, sp) ∈ walkPairs none walk sizes ↔
      (∃ fns, (d, fns) ∈ walk ∧ fn ∈ fns) ∧ startsWithDot fn = false ∧
        (nm, sp) ∈ sizes) ∧
    ((d, fn, nm, sp) ∈ walkPairs (some m) walk sizes ↔
      (∃ fns, (d, fns) ∈ walk ∧ fn ∈ fns) ∧
        (∃ k ≤ fn.length, m (fn.take k) = true) ∧ (nm, sp) ∈ sizes) := by
  constructor
  · unfold walkPairs is_included
    simp only [List.mem_flatMap, List.mem_filter, List.mem_map, Prod.mk.injEq]
    constructor
    · rintro ⟨⟨d0, fns⟩, hw, fn0, ⟨hfn0, hinc⟩, ⟨n0, s0⟩, hs, hd, hf, hn, hsp⟩
      subst hd hf hn hsp
      exact ⟨⟨fns, hw, hfn0⟩, by simpa using hinc, hs⟩
    · rintro ⟨⟨fns, hw, hfn⟩, hdot, hs⟩
      exact ⟨(d, fns), hw, fn, ⟨hfn, by simpa using hdot⟩, (nm, sp), hs, rfl, rfl, rfl, rfl⟩
  · unfold walkPairs is_included
    simp only [List.mem_flatMap, List.mem_filter, List.mem_map, Prod.mk.injEq]
    constructor
    · rintro ⟨⟨d0, fns⟩, hw, fn0, ⟨hfn0, hinc⟩, ⟨n0, s0⟩, hs, hd, hf, hn, hsp⟩
      subst hd hf hn hsp
      refine ⟨⟨fns, hw, hfn0⟩, ?_, hs⟩
      rw [pyMatch, List.any_eq_true] at hinc
      obtain ⟨k, hk, hm⟩ := hinc
      exact ⟨k, Nat.lt_succ_iff.mp (List.mem_range.mp hk), hm⟩
    · rintro ⟨⟨fns, hw, hfn⟩, ⟨k, hk, hm⟩, hs⟩
      refine ⟨(d, fns), hw, fn, ⟨hfn, ?_⟩, (nm, sp), hs, rfl, rfl, rfl, rfl⟩
      rw [pyMatch, List.any_eq_true]
      exact ⟨k, List.mem_range.mpr (Nat.lt_succ_iff.mpr hk), hm⟩

/-- C10 counterexample: the claim says the thumbnail URL for every
gallery file is `/<thumbnail_dir>/<basename>_<resizer_name><ext>`.  But
`get_thumbnail_name` strips the character-wise common prefix of its
argument and the image root, and in gallery expansion the argument is
the bare filename.  With the relative image root `content/pictures` and
the file `cat.jpg` (in any gallery subdirectory — the thumbnail does not
depend on the directory), the shared leading `c` is stripped and the
code produces `/thumbnails/at_thumbnail_square.jpg` instead of
`/thumbnails/cat_thumbnail_square.jpg`. -/
theorem c10_counterexample :
    galleryThumbUrl
        ⟨("content/pictures".data), ("pictures".data), ("thumbnails".data), [],
          ("thumbnail_square".data)⟩ ("cat.jpg".data) =
      ("/thumbnails/at_thumbnail_square.jpg".data) ∧
    galleryThumbUrl
        ⟨("content/pictures".data), ("pictures".data), ("thumbnails".data), [],
          ("thumbnail_square".data)⟩ ("cat.jpg".data) ≠
      ("/thumbnails/cat_thumbnail_square.jpg".data) := by
  constructor
  · decide
  · decide

/-- C10 amended: provided the bare filename shares no leading character
with the image root (in particular whenever the root is an absolute path
starting with `/`, since a bare filename never starts with `/`), the
thumbnail URL of every gallery file — even one in a nested subdirectory
`sub` of the gallery — is `/<thumbnail_dir>/<basename>_<name><ext>`
computed from the bare filename alone, with no subdirectory component
(no separator occurs after the `<thumbnail_dir>/` part), while the
public URL of the same file does retain the subdirectory. -/
theorem c10_thumb_from_bare_name (st : GSettings) (sub fn : Str)
    (hc : commonPfx fn st.basePath = [])
    (hfn : fn ≠ []) (hfs : '/' ∉ fn) (hfb : '\\' ∉ fn)
    (htd : st.thumbDir ≠ []) (htdh : st.thumbDir.head? ≠ some '/')
    (htdl : st.thumbDir.getLast? ≠ some '/') (htdb : '\\' ∉ st.thumbDir)
    (htns : '/' ∉ st.thumbName) (htnb : '\\' ∉ st.thumbName)
    (hbp : st.basePath ≠ [])
    (hsub : sub ≠ []) (hsubh : sub.head? ≠ some '/')
    (hsubl : sub.getLast? ≠ some '/') (hsubb : '\\' ∉ sub)
    (him : st.imagePath ≠ []) (himh : st.imagePath.head? ≠ some '/')
    (himl : st.imagePath.getLast? ≠ some '/') (himb : '\\' ∉ st.imagePath)
    (hocc : occursIn st.basePath ('/' :: (sub ++ '/' :: fn)) = false) :
    galleryThumbUrl st fn =
      '/' :: st.thumbDir ++ '/' ::
        ((splitext fn).1 ++ '_' :: st.thumbName ++ (splitext fn).2) ∧
    '/' ∉ (splitext fn).1 ++ '_' :: st.thumbName ++ (splitext fn).2 ∧
    galleryUrl st (st.basePath ++ '/' :: sub) fn =
      ("/static".data) ++ '/' :: (st.imagePath ++ '/' :: (sub ++ '/' :: fn)) ∧
    galleryLine st (st.basePath ++ '/' :: sub) fn =
      renderTemplate st.template fn
        (("/static".data) ++ '/' :: (st.imagePath ++ '/' :: (sub ++ '/' :: fn)))
        ('/' :: st.thumbDir ++ '/' ::
          ((splitext fn).1 ++ '_' :: st.thumbName ++ (splitext fn).2)) := by
  have hfnh : fn.head? ≠ some '/' := head?_ne_of_not_mem fn '/' hfs
  have hgtn : get_thumbnail_name st.thumbName st.basePath fn =
      (splitext fn).1 ++ '_' :: st.thumbName ++ (splitext fn).2 := by
    simp only [get_thumbnail_name, hc, List.length_nil, List.drop_zero]
    rw [if_neg hfnh]
  have hfst_ne : (splitext fn).1 ≠ [] := by
    have hh := splitext_fst_head fn
    cases fn with
    | nil => exact absurd rfl hfn
    | cons a t =>
      intro he
      rw [he] at hh
      simp at hh
  have hThead : ((splitext fn).1 ++ '_' :: st.thumbName ++ (splitext fn).2).head? ≠
      some '/' := by
    rw [head?_append_left ((splitext fn).1 ++ '_' :: st.thumbName) _ (by simp),
      head?_append_left _ _ hfst_ne, splitext_fst_head fn]
    exact hfnh
  have hTnos : '/' ∉ (splitext fn).1 ++ '_' :: st.thumbName ++ (splitext fn).2 := by
    intro hm
    rcases List.mem_append.mp hm with h1 | h2
    · rcases List.mem_append.mp h1 with h3 | h4
      · exact hfs (splitext_fst_subset fn h3)
      · rcases List.mem_cons.mp h4 with h5 | h6
        · exact absurd h5 (by decide)
        · exact htns h6
    · exact hfs (splitext_snd_subset fn h2)
  have hbs1 : '\\' ∉ ('/' :: st.thumbDir) ++ '/' ::
      ((splitext fn).1 ++ '_' :: st.thumbName ++ (splitext fn).2) := by
    intro hm
    rcases List.mem_append.mp hm with h1 | h2
    · rcases List.mem_cons.mp h1 with h3 | h4
      · exact absurd h3 (by decide)
      · exact htdb h4
    · rcases List.mem_cons.mp h2 with h3 | h4
      · exact absurd h3 (by decide)
      · rcases List.mem_append.mp h4 with h5 | h6
        · rcases List.mem_append.mp h5 with h7 | h8
          · exact hfb (splitext_fst_subset fn h7)
          · rcases List.mem_cons.mp h8 with h9 | h10
            · exact absurd h9 (by decide)
            · exact htnb h10
        · exact hfb (splitext_snd_subset fn h6)
  have hthumb : galleryThumbUrl st fn =
      '/' :: st.thumbDir ++ '/' ::
        ((splitext fn).1 ++ '_' :: st.thumbName ++ (splitext fn).2) := by
    simp only [galleryThumbUrl]
    rw [hgtn, pjoin_root st.thumbDir htdh,
      pjoin_sep _ _ hThead (by simp)
        (by rw [getLast?_cons_of_ne_nil '/' st.thumbDir htd]; exact htdl),
      mapBackslash_id _ hbs1]
  have hsubfn_h : (sub ++ '/' :: fn).head? ≠ some '/' := by
    rw [head?_append_left sub _ hsub]
    exact hsubh
  have hjoin1 : pjoin (st.basePath ++ '/' :: sub) fn =
      st.basePath ++ '/' :: (sub ++ '/' :: fn) := by
    rw [pjoin_sep _ _ hfnh (by simp)
      (by rw [List.getLast?_append_cons, getLast?_cons_of_ne_nil '/' sub hsub]
          exact hsubl)]
    simp
  have hurl : galleryUrl st (st.basePath ++ '/' :: sub) fn =
      ("/static".data) ++ '/' :: (st.imagePath ++ '/' :: (sub ++ '/' :: fn)) := by
    simp only [galleryUrl]
    rw [hjoin1, replaceAll_strip st.basePath ('/' :: (sub ++ '/' :: fn)) hbp hocc]
    rw [show ('/' :: (sub ++ '/' :: fn)).drop 1 = sub ++ '/' :: fn from rfl]
    rw [pjoin_sep ("/static".data) st.imagePath himh (by decide) (by decide)]
    rw [pjoin_sep _ _ hsubfn_h (by simp)
      (by rw [List.getLast?_append_cons, getLast?_cons_of_ne_nil '/' st.imagePath him]
          exact himl)]
    rw [mapBackslash_id _ ?hbs2]
    · simp
    case hbs2 =>
      intro hm
      rcases List.mem_append.mp hm with h1 | h2
      · rcases List.mem_append.mp h1 with h3 | h4
        · exact absurd h3 (by decide)
        · rcases List.mem_cons.mp h4 with h5 | h6
          · exact absurd h5 (by decide)
          · exact himb h6
      · rcases List.mem_cons.mp h2 with h3 | h4
        · exact absurd h3 (by decide)
        · rcases List.mem_append.mp h4 with h5 | h6
          · exact hsubb h5
          · rcases List.mem_cons.mp h6 with h7 | h8
            · exact absurd h7 (by decide)
            · exact hfb h8
  refine ⟨hthumb, hTnos, hurl, ?_⟩
  simp only [galleryLine]
  rw [hurl, hthumb]

/-- C10 amended witness: with the absolute image root
`/srv/content/pictures` and the file `vacation/cat.jpg`, the thumbnail
URL is flat while the public URL keeps the subdirectory. -/
theorem c10_thumb_from_bare_name_witness :
    galleryThumbUrl
        ⟨("/srv/content/pictures".data), ("pictures".data), ("thumbnails".data),
          [TPiece.fieldThumbnail], ("thumb".data)⟩ ("cat.jpg".data) =
      ("/thumbnails/cat_thumb.jpg".data) ∧
    galleryUrl
        ⟨("/srv/content/pictures".data), ("pictures".data), ("thumbnails".data),
          [TPiece.fieldThumbnail], ("thumb".data)⟩
        (("/srv/content/pictures".data) ++ '/' :: ("vacation".data)) ("cat.jpg".data) =
      ("/static/pictures/vacation/cat.jpg".data) := by
  have h := c10_thumb_from_bare_name
    ⟨("/srv/content/pictures".data), ("pictures".data), ("thumbnails".data),
      [TPiece.fieldThumbnail], ("thumb".data)⟩
    ("vacation".data) ("cat.jpg".data)
    (by decide) (by decide) (by decide) (by decide) (by decide) (by decide)
    (by decide) (by decide) (by decide) (by decide) (by decide) (by decide)
    (by decide) (by decide) (by decide) (by decide) (by decide) (by decide)
    (by decide) (by decide)
  exact ⟨by rw [h.1]; decide, by rw [h.2.2.1]; decide⟩

end Thumbnailer
